import Mathlib

set_option linter.all false

/-!
Shallow embedding of the LRU object cache in `main.cpp`.

Modelling conventions:
* `std::chrono::steady_clock::time_point` is a `Nat` instant supplied to each
  call as `now`.
* A cached value is identified by a `Nat`; the `weak_ptr` liveness of a value
  is an external environment `alive : Nat → Bool` supplied to each call
  (`expired()` is its negation).  The environment may differ between calls,
  which models the external owner dropping a value between operations.
* `std::unordered_map<K, CacheEntry>` is an association list in iteration
  order; `begin()` is the head, and an iterator is a position in that order.
-/

/-- One cache slot, mirroring `ObjectCache::CacheEntry`: a non-owning
reference to a value (its identifier) plus creation and last-access
timestamps. -/
structure CacheEntry where
  value : Nat
  created_at : Nat
  last_accessed_at : Nat
deriving Repr, DecidableEq

/-- The method `CacheEntry::Access()`: refresh the last-access timestamp. -/
def CacheEntry.Access (e : CacheEntry) (now : Nat) : CacheEntry :=
  { e with last_accessed_at := now }

/-- The constructor `CacheEntry(const std::shared_ptr<V> v)`: record the
creation instant and call `Access()`, so both timestamps are `now`. -/
def CacheEntry.make (now vid : Nat) : CacheEntry :=
  { value := vid, created_at := now, last_accessed_at := now }

/-- The entry table `std::unordered_map<K, CacheEntry>` in iteration order. -/
abbrev Table := List (Nat × CacheEntry)

/-- The check `weak_ptr::expired()`: true once the external strong owner of the value
has released it, as told by the liveness environment. -/
def expiredRef (alive : Nat → Bool) (vid : Nat) : Bool :=
  ! alive vid

/-- The concrete eviction policies of the repository: `LRUPolicy` is the only
subclass of the abstract `CachePolicy`. -/
inductive CachePolicy where
  | lru
deriving Repr, DecidableEq

/-- The scan loop of `LRUPolicy::Evict`: walk the remaining entries carrying
the position `best` of the current candidate and its timestamp `bestVal`
(the loop re-reads `lru->second.last_accessed_at`); `i` is the position of
the entry under the iterator.  A strictly smaller timestamp moves the
candidate, so the first entry attaining the minimum wins. -/
def lruScan (best bestVal i : Nat) : Table → Nat
  | [] => best
  | p :: rest =>
      if p.2.last_accessed_at < bestVal then
        lruScan i p.2.last_accessed_at (i + 1) rest
      else
        lruScan best bestVal (i + 1) rest

/-- The method `LRUPolicy::Evict`: start with `lru = begin()`, scan every entry, and
erase the candidate.  On an empty table `begin() == end()` and the guard
`lru != cache.end()` makes the call a no-op. -/
def LRUPolicy.Evict (t : Table) : Table :=
  match t with
  | [] => t
  | p :: rest => List.eraseIdx (p :: rest) (lruScan 0 p.2.last_accessed_at 1 rest)

/-- The cache object: the entry table, the installed policy (`policy_` is a
possibly-null `unique_ptr`), and the stored `max_size_`. -/
structure ObjectCache where
  cache : Table
  policy : Option CachePolicy
  max_size : Nat
deriving Repr, DecidableEq

/-- The constructor `ObjectCache(size_t max_size = 1000)`: stores `max_size_` and
nothing else; the constructor performs no validation of the capacity. -/
def ObjectCache.make (max_size : Nat) : ObjectCache :=
  { cache := [], policy := none, max_size := max_size }

/-- The method `ObjectCache::SetPolicy`: replace the policy pointer. -/
def ObjectCache.SetPolicy (p : Option CachePolicy) (c : ObjectCache) : ObjectCache :=
  { c with policy := p }

/-- The method `ObjectCache::CleanupExpired`: erase every entry whose reference is
expired, keeping the others in iteration order. -/
def ObjectCache.CleanupExpired (alive : Nat → Bool) (c : ObjectCache) : ObjectCache :=
  { c with cache := c.cache.filter (fun p => ! expiredRef alive p.2.value) }

/-- The statement `cache_[key] = CacheEntry(val)`: `operator[]` keeps the node of an
existing key in place and the assignment overwrites its mapped entry;
otherwise a new node is inserted (modelled at the end of the order). -/
def insertAssign (key : Nat) (e : CacheEntry) : Table → Table
  | [] => [(key, e)]
  | p :: rest => if p.1 = key then (key, e) :: rest else p :: insertAssign key e rest

/-- The method `ObjectCache::Put`: sweep expired entries, then evict
unconditionally — through the policy when one is set, otherwise
`cache_.erase(cache_.begin())`, which erases the first entry in iteration
order when the table is non-empty but is undefined behaviour in C++ when the
post-sweep table is empty (`begin() == end()` there), so that branch yields
`none` — and finally insert or overwrite the key with a fresh entry.  The
source never compares the table size against `max_size_`. -/
def ObjectCache.Put (alive : Nat → Bool) (now key vid : Nat) (c : ObjectCache) :
    Option ObjectCache :=
  let c1 := ObjectCache.CleanupExpired alive c
  match c1.policy with
  | some .lru =>
      some { c1 with
        cache := insertAssign key (CacheEntry.make now vid) (LRUPolicy.Evict c1.cache) }
  | none =>
      match c1.cache with
      | [] => none
      | _ :: rest => some { c1 with cache := insertAssign key (CacheEntry.make now vid) rest }

/-- The node update `it->second.Access()` performed by `Get` on the node that
`find` returned: refresh the first entry carrying the key. -/
def accessFirst (now key : Nat) : Table → Table
  | [] => []
  | p :: rest =>
      if p.1 = key then (p.1, p.2.Access now) :: rest else p :: accessFirst now key rest

/-- The method `ObjectCache::Get`: look the key up; an absent key gives an empty result;
an entry whose reference is expired is erased lazily and gives an empty
result; otherwise `Access()` refreshes the entry and `lock()` yields the
strong handle (never empty here, since expiry was just checked under the
same lock). -/
def ObjectCache.Get (alive : Nat → Bool) (now key : Nat) (c : ObjectCache) :
    Option Nat × ObjectCache :=
  match c.cache.find? (fun p => p.1 == key) with
  | none => (none, c)
  | some p =>
      if expiredRef alive p.2.value then
        (none, { c with cache := c.cache.eraseP (fun q => q.1 == key) })
      else
        (some p.2.value, { c with cache := accessFirst now key c.cache })

/-- The method `ObjectCache::Size` (a `const` method): the raw table size. -/
def ObjectCache.Size (c : ObjectCache) : Nat :=
  c.cache.length

/-- The method `ObjectCache::Clear`: empty the table; nothing else is touched. -/
def ObjectCache.Clear (c : ObjectCache) : ObjectCache :=
  { c with cache := [] }

/-- The method `ObjectCache::Contains` (a `const` method): true iff the key is found and
its reference is not expired; it reads the table and writes nothing. -/
def ObjectCache.Contains (alive : Nat → Bool) (key : Nat) (c : ObjectCache) : Bool :=
  match c.cache.find? (fun p => p.1 == key) with
  | none => false
  | some p => ! expiredRef alive p.2.value

/-- One public call of the API, for reasoning about call sequences. -/
inductive CacheOp where
  | put (key vid : Nat)
  | get (key : Nat)
  | containsOp (key : Nat)
  | cleanupExpired
  | clear
  | setPolicy (p : Option CachePolicy)
deriving Repr, DecidableEq

/-- The state transition of one public call; `none` marks a call whose
behaviour the C++ standard leaves undefined (`Put` with no policy and an
empty post-sweep table).  `Contains` (like `Size`) is a `const` method of
the source: it only reads the table, so the state is returned unchanged. -/
def stepOp (alive : Nat → Bool) (now : Nat) : CacheOp → ObjectCache → Option ObjectCache
  | .put k v, c => ObjectCache.Put alive now k v c
  | .get k, c => some (ObjectCache.Get alive now k c).2
  | .containsOp _, c => some c
  | .cleanupExpired, c => some (ObjectCache.CleanupExpired alive c)
  | .clear, c => some (ObjectCache.Clear c)
  | .setPolicy p, c => some (ObjectCache.SetPolicy p c)

/-- Run a sequence of public calls; each call carries its own liveness
environment and instant, modelling external owners dropping values and time
passing between calls.  A call that hits undefined behaviour poisons the
whole run: the result is `none` and no later call is interpreted. -/
def runOps (c : ObjectCache) : List ((Nat → Bool) × Nat × CacheOp) → Option ObjectCache
  | [] => some c
  | a :: rest =>
      match stepOp a.1 a.2.1 a.2.2 c with
      | none => none
      | some c2 => runOps c2 rest

/-- The liveness environment in which every value still has its external
strong owner. -/
def aliveAll : Nat → Bool := fun _ => true

/-- A capacity-2 cache with the LRU policy installed and one live entry. -/
def c1state : ObjectCache :=
  { cache := [(0, CacheEntry.make 0 5)], policy := some .lru, max_size := 2 }

/-- The call sequence of the LRU scenario: `Put(a,v1); Put(b,v2); Get(a);
Put(c,v3)` with `a, b, c` the keys `0, 1, 2`, every value kept alive and the
clock advancing between calls. -/
def c3seq : List ((Nat → Bool) × Nat × CacheOp) :=
  [(aliveAll, 1, .put 0 10), (aliveAll, 2, .put 1 11),
   (aliveAll, 3, .get 0), (aliveAll, 4, .put 2 12)]

/-- The result of running the LRU scenario on a capacity-2 cache with the
LRU policy installed (the run is free of undefined behaviour, so it is
`some` state). -/
def c3final : Option ObjectCache :=
  runOps (ObjectCache.SetPolicy (some .lru) (ObjectCache.make 2)) c3seq

/-- The state the LRU scenario actually reaches: only key 2 (`c`) survives. -/
def c3state : ObjectCache :=
  { cache := [(2, CacheEntry.make 4 12)], policy := some .lru, max_size := 2 }

/-- The run used to witness the size bound: install the LRU policy, then
three `Put` calls on a capacity-2 cache, every value kept alive. -/
def seqW2 : List ((Nat → Bool) × Nat × CacheOp) :=
  [(aliveAll, 1, .setPolicy (some .lru)), (aliveAll, 2, .put 0 5),
   (aliveAll, 3, .put 1 6), (aliveAll, 4, .put 2 7)]

/-- The state that run reaches. -/
def cW2 : ObjectCache :=
  { cache := [(2, CacheEntry.make 4 7)], policy := some .lru, max_size := 2 }

/-- The cache state used to witness the `Get` contract. -/
def cW5 : ObjectCache :=
  { cache := [(0, CacheEntry.mk 5 0 1), (1, CacheEntry.mk 6 0 2)],
    policy := some .lru, max_size := 2 }

/-- The cache state used to witness the `Contains` contract. -/
def cW6 : ObjectCache :=
  { cache := [(0, CacheEntry.mk 5 0 1), (1, CacheEntry.mk 6 0 2)],
    policy := some .lru, max_size := 2 }

/-- The liveness environment in which exactly the even value identifiers
still have an external owner. -/
def aliveEven : Nat → Bool := fun n => n % 2 == 0

/-- The cache state used to witness the `CleanupExpired` contract: entry 0
holds the live value 2, entry 1 holds the dropped value 3. -/
def cW8 : ObjectCache :=
  { cache := [(0, CacheEntry.mk 2 0 1), (1, CacheEntry.mk 3 0 2)],
    policy := none, max_size := 5 }

/-- C1: the source's `Put` does not follow the claimed steps: with the LRU
policy installed, capacity 2 and a table holding a single live entry, `Put`
of a fresh key still evicts the existing entry although the post-sweep size
1 is below the capacity — the code invokes the policy's evict
unconditionally and never reads `max_size_`. -/
theorem put_evicts_below_capacity :
    c1state.cache.length < c1state.max_size ∧
    ObjectCache.Put aliveAll 1 1 6 c1state =
      some { cache := [(1, CacheEntry.make 1 6)], policy := some .lru, max_size := 2 } := by
  decide

/-- C3: the claimed LRU scenario fails on the source: with capacity 2 and the
LRU policy, after `Put(a,v1); Put(b,v2); Get(a); Put(c,v3)` (values all kept
alive) only `c` is present — `a` was already evicted by the second `Put` and
`b` by the fourth, since every `Put` evicts; the claim expects `a` and `c`
present and only `b` absent. -/
theorem lru_scenario_diverges :
    c3final = some c3state ∧
    ObjectCache.Contains aliveAll 0 c3state = false ∧
    ObjectCache.Contains aliveAll 1 c3state = false ∧
    ObjectCache.Contains aliveAll 2 c3state = true := by
  decide

/-- C7: construction with capacity 0 does not fail fast: the constructor
stores `max_size_` without any validation, so constructing with 0 yields an
ordinary empty cache rather than a configuration error. -/
theorem make_zero_capacity_succeeds :
    ObjectCache.make 0 = { cache := [], policy := none, max_size := 0 } := rfl

/-- C10: `Clear` empties the table and leaves the installed policy untouched:
a policy set via `SetPolicy` before `Clear` is still the active policy
afterwards, and subsequent `Put` calls behave exactly as on a fresh table
with that same policy, without it being reinstalled. -/
theorem clear_keeps_policy (c : ObjectCache) (p : Option CachePolicy) :
    (ObjectCache.Clear c).cache = [] ∧
    (ObjectCache.Clear c).policy = c.policy ∧
    (ObjectCache.Clear (ObjectCache.SetPolicy p c)).policy = p ∧
    (∀ alive now k v, ObjectCache.Put alive now k v (ObjectCache.Clear c) =
      ObjectCache.Put alive now k v
        { cache := [], policy := c.policy, max_size := c.max_size }) :=
  ⟨rfl, rfl, rfl, fun _ _ _ _ => rfl⟩

theorem length_insertAssign (key : Nat) (e : CacheEntry) (t : Table) :
    (insertAssign key e t).length ≤ t.length + 1 := by
  induction t with
  | nil => simp [insertAssign]
  | cons p rest ih =>
      by_cases h : p.1 = key <;> simp [insertAssign, h]
      omega

theorem lruScan_lt (rest : Table) :
    ∀ best bestVal i, best < i → lruScan best bestVal i rest < i + rest.length := by
  induction rest with
  | nil => intro best bestVal i h; simpa [lruScan] using h
  | cons p r ih =>
      intro best bestVal i h
      by_cases hc : p.2.last_accessed_at < bestVal
      · have h2 := ih i p.2.last_accessed_at (i + 1) (Nat.lt_succ_self i)
        simp only [lruScan, hc, if_pos]
        simp only [List.length_cons]
        omega
      · have h2 := ih best bestVal (i + 1) (Nat.lt_succ_of_lt h)
        simp only [lruScan, hc, if_neg, ite_false]
        simp only [List.length_cons]
        omega

theorem length_Evict (t : Table) : (LRUPolicy.Evict t).length = t.length - 1 := by
  match t with
  | [] => rfl
  | p :: rest =>
      have h := lruScan_lt rest 0 p.2.last_accessed_at 1 Nat.one_pos
      simp only [LRUPolicy.Evict]
      rw [List.length_eraseIdx, if_pos (by simp only [List.length_cons]; omega)]

theorem length_Put_le_one (alive : Nat → Bool) (now key vid : Nat) (c c2 : ObjectCache)
    (h : c.cache.length ≤ 1) (hp : ObjectCache.Put alive now key vid c = some c2) :
    c2.cache.length ≤ 1 := by
  have hf : (c.cache.filter (fun p => ! expiredRef alive p.2.value)).length ≤ c.cache.length :=
    List.length_filter_le _ _
  simp only [ObjectCache.Put, ObjectCache.CleanupExpired] at hp
  cases hpol : c.policy with
  | none =>
      rw [hpol] at hp
      cases hc : c.cache.filter (fun p => ! expiredRef alive p.2.value) with
      | nil => rw [hc] at hp; cases hp
      | cons q rest =>
          rw [hc] at hp
          have h2 := Option.some.inj hp
          have h3 := length_insertAssign key (CacheEntry.make now vid) rest
          have h4 : (q :: rest).length ≤ c.cache.length := hc ▸ hf
          rw [← h2]
          simp only [List.length_cons] at h4
          exact by simpa using by omega
  | some pol =>
      cases pol
      rw [hpol] at hp
      have h2 := Option.some.inj hp
      have he := length_Evict (c.cache.filter (fun p => ! expiredRef alive p.2.value))
      have h3 := length_insertAssign key (CacheEntry.make now vid)
        (LRUPolicy.Evict (c.cache.filter (fun p => ! expiredRef alive p.2.value)))
      rw [← h2]
      exact by simpa using by omega

theorem length_accessFirst (now key : Nat) : ∀ t : Table, (accessFirst now key t).length = t.length := by
  intro t
  induction t with
  | nil => rfl
  | cons p rest ih => by_cases h : p.1 = key <;> simp [accessFirst, h, ih]

theorem length_Get (alive : Nat → Bool) (now key : Nat) (c : ObjectCache) :
    (ObjectCache.Get alive now key c).2.cache.length ≤ c.cache.length := by
  unfold ObjectCache.Get
  cases hf : c.cache.find? (fun p => p.1 == key) with
  | none => simp
  | some p =>
      by_cases he : expiredRef alive p.2.value
      · simp only [he, if_pos]
        exact List.length_eraseP_le _
      · simp only [he, ite_false]
        simp [length_accessFirst]

theorem length_stepOp (alive : Nat → Bool) (now : Nat) (op : CacheOp) (c c2 : ObjectCache)
    (h : c.cache.length ≤ 1) (hs : stepOp alive now op c = some c2) :
    c2.cache.length ≤ 1 := by
  cases op with
  | put k v => exact length_Put_le_one alive now k v c c2 h hs
  | get k =>
      rw [← Option.some.inj hs]
      exact le_trans (length_Get alive now k c) h
  | containsOp k =>
      rw [← Option.some.inj hs]
      exact h
  | cleanupExpired =>
      rw [← Option.some.inj hs]
      exact le_trans (List.length_filter_le _ _) h
  | clear =>
      rw [← Option.some.inj hs]
      simp [ObjectCache.Clear]
  | setPolicy p =>
      rw [← Option.some.inj hs]
      exact h

theorem length_runOps (l : List ((Nat → Bool) × Nat × CacheOp)) :
    ∀ c c2 : ObjectCache, runOps c l = some c2 → c.cache.length ≤ 1 →
      c2.cache.length ≤ 1 := by
  induction l with
  | nil =>
      intro c c2 hr h
      rw [← Option.some.inj hr]
      exact h
  | cons a rest ih =>
      intro c c2 hr h
      simp only [runOps] at hr
      cases hs : stepOp a.1 a.2.1 a.2.2 c with
      | none => rw [hs] at hr; cases hr
      | some cmid =>
          rw [hs] at hr
          exact ih cmid c2 hr (length_stepOp a.1 a.2.1 a.2.2 c cmid h hs)

/-- C2: along every run of public calls (in particular every run of `Put`
calls) from a freshly constructed cache with positive capacity in which no
call hits the source's undefined behaviour (the no-policy eviction fallback
on an empty post-sweep table), the table size after each call is at most the
capacity — in fact at most one entry, because every `Put` evicts whenever
the post-sweep table is non-empty.  Runs hitting the undefined branch reach
no state at all, mirroring that the C++ program makes no promise there. -/
theorem size_le_capacity (cap : Nat) (hcap : 1 ≤ cap)
    (l : List ((Nat → Bool) × Nat × CacheOp)) (c2 : ObjectCache)
    (hrun : runOps (ObjectCache.make cap) l = some c2) :
    c2.Size ≤ cap :=
  le_trans (length_runOps l (ObjectCache.make cap) c2 hrun (by simp [ObjectCache.make])) hcap

theorem size_le_capacity_witness : cW2.Size ≤ 2 :=
  size_le_capacity 2 (by decide) seqW2 cW2 (by decide)

theorem lruScan_spec (rest : Table) : ∀ best bestVal i,
    (lruScan best bestVal i rest = best ∧
      ∀ j (hj : j < rest.length), bestVal ≤ (rest.get ⟨j, hj⟩).2.last_accessed_at) ∨
    (∃ j, ∃ hj : j < rest.length,
      lruScan best bestVal i rest = i + j ∧
      (rest.get ⟨j, hj⟩).2.last_accessed_at < bestVal ∧
      (∀ k (hk : k < rest.length),
        (rest.get ⟨j, hj⟩).2.last_accessed_at ≤ (rest.get ⟨k, hk⟩).2.last_accessed_at) ∧
      (∀ k (hk : k < rest.length), k < j →
        (rest.get ⟨j, hj⟩).2.last_accessed_at < (rest.get ⟨k, hk⟩).2.last_accessed_at)) := by
  induction rest with
  | nil =>
      intro best bestVal i
      left
      exact ⟨rfl, fun j hj => absurd hj (by simp)⟩
  | cons q r ih =>
      intro best bestVal i
      by_cases hc : q.2.last_accessed_at < bestVal
      · rcases ih i q.2.last_accessed_at (i + 1) with ⟨heq, hall⟩ | ⟨j, hj, heq, hlt, hmin, hstrict⟩
        · right
          refine ⟨0, by simp, ?_, by simpa using hc, ?_, ?_⟩
          · simp only [lruScan, hc, if_pos, heq]
            omega
          · intro k hk
            rcases k with _ | k
            · simp
            · rw [List.get_cons_succ]
              exact hall k (by simpa using hk)
          · intro k hk hk0
            omega
        · right
          refine ⟨j + 1, by simp only [List.length_cons]; omega, ?_, ?_, ?_, ?_⟩
          · simp only [lruScan, hc, if_pos, heq]
            omega
          · rw [List.get_cons_succ]
            exact lt_trans hlt hc
          · intro k hk
            rcases k with _ | k
            · rw [List.get_cons_succ]
              exact le_of_lt hlt
            · rw [List.get_cons_succ, List.get_cons_succ]
              exact hmin k (by simpa using hk)
          · intro k hk hkj
            rcases k with _ | k
            · rw [List.get_cons_succ]
              exact hlt
            · rw [List.get_cons_succ, List.get_cons_succ]
              exact hstrict k (by simpa using hk) (by omega)
      · rcases ih best bestVal (i + 1) with ⟨heq, hall⟩ | ⟨j, hj, heq, hlt, hmin, hstrict⟩
        · left
          refine ⟨by simp only [lruScan, hc, ite_false, heq], ?_⟩
          intro j hj
          rcases j with _ | j
          · exact not_lt.mp hc
          · rw [List.get_cons_succ]
            exact hall j (by simpa using hj)
        · right
          refine ⟨j + 1, by simp only [List.length_cons]; omega, ?_, ?_, ?_, ?_⟩
          · simp only [lruScan, hc, ite_false, heq]
            omega
          · rw [List.get_cons_succ]
            exact hlt
          · intro k hk
            rcases k with _ | k
            · rw [List.get_cons_succ]
              exact le_of_lt (lt_of_lt_of_le hlt (not_lt.mp hc))
            · rw [List.get_cons_succ, List.get_cons_succ]
              exact hmin k (by simpa using hk)
          · intro k hk hkj
            rcases k with _ | k
            · rw [List.get_cons_succ]
              exact lt_of_lt_of_le hlt (not_lt.mp hc)
            · rw [List.get_cons_succ, List.get_cons_succ]
              exact hstrict k (by simpa using hk) (by omega)

/-- C4: `LRUPolicy::Evict` on an empty table is a no-op, and on a non-empty
table it removes exactly one entry — one at a valid position, holding the
smallest `last_accessed_at`, with every earlier position strictly larger
(first-encountered-wins on ties). -/
theorem evict_spec (t : Table) :
    LRUPolicy.Evict ([] : Table) = [] ∧
    (t ≠ [] → ∃ i, ∃ hi : i < t.length,
      LRUPolicy.Evict t = t.eraseIdx i ∧
      (LRUPolicy.Evict t).length = t.length - 1 ∧
      (∀ j (hj : j < t.length),
        (t.get ⟨i, hi⟩).2.last_accessed_at ≤ (t.get ⟨j, hj⟩).2.last_accessed_at) ∧
      (∀ j (hj : j < t.length), j < i →
        (t.get ⟨i, hi⟩).2.last_accessed_at < (t.get ⟨j, hj⟩).2.last_accessed_at)) := by
  refine ⟨rfl, ?_⟩
  intro hne
  match t with
  | [] => exact absurd rfl hne
  | p :: rest =>
      rcases lruScan_spec rest 0 p.2.last_accessed_at 1 with
        ⟨heq, hall⟩ | ⟨j, hj, heq, hlt, hmin, hstrict⟩
      · refine ⟨0, by simp, ?_, length_Evict _, ?_, ?_⟩
        · simp only [LRUPolicy.Evict, heq]
        · intro k hk
          rcases k with _ | k
          · exact le_refl _
          · rw [List.get_cons_succ]
            exact hall k (by simpa using hk)
        · intro k hk hk0
          omega
      · refine ⟨j + 1, by simp only [List.length_cons]; omega, ?_, length_Evict _, ?_, ?_⟩
        · simp only [LRUPolicy.Evict, heq]
          congr 1
          omega
        · intro k hk
          rcases k with _ | k
          · rw [List.get_cons_succ]
            exact le_of_lt hlt
          · rw [List.get_cons_succ, List.get_cons_succ]
            exact hmin k (by simpa using hk)
        · intro k hk hkj
          rcases k with _ | k
          · rw [List.get_cons_succ]
            exact hlt
          · rw [List.get_cons_succ, List.get_cons_succ]
            exact hstrict k (by simpa using hk) (by omega)

theorem evict_spec_witness :
    ∃ i, ∃ hi : i < ([(0, CacheEntry.mk 5 0 7), (1, CacheEntry.mk 6 0 3)] : Table).length,
      LRUPolicy.Evict [(0, CacheEntry.mk 5 0 7), (1, CacheEntry.mk 6 0 3)] =
        List.eraseIdx [(0, CacheEntry.mk 5 0 7), (1, CacheEntry.mk 6 0 3)] i ∧
      (LRUPolicy.Evict [(0, CacheEntry.mk 5 0 7), (1, CacheEntry.mk 6 0 3)]).length =
        ([(0, CacheEntry.mk 5 0 7), (1, CacheEntry.mk 6 0 3)] : Table).length - 1 ∧
      (∀ j (hj : j < ([(0, CacheEntry.mk 5 0 7), (1, CacheEntry.mk 6 0 3)] : Table).length),
        (([(0, CacheEntry.mk 5 0 7), (1, CacheEntry.mk 6 0 3)] : Table).get ⟨i, hi⟩).2.last_accessed_at ≤
          (([(0, CacheEntry.mk 5 0 7), (1, CacheEntry.mk 6 0 3)] : Table).get ⟨j, hj⟩).2.last_accessed_at) ∧
      (∀ j (hj : j < ([(0, CacheEntry.mk 5 0 7), (1, CacheEntry.mk 6 0 3)] : Table).length), j < i →
        (([(0, CacheEntry.mk 5 0 7), (1, CacheEntry.mk 6 0 3)] : Table).get ⟨i, hi⟩).2.last_accessed_at <
          (([(0, CacheEntry.mk 5 0 7), (1, CacheEntry.mk 6 0 3)] : Table).get ⟨j, hj⟩).2.last_accessed_at) :=
  (evict_spec [(0, CacheEntry.mk 5 0 7), (1, CacheEntry.mk 6 0 3)]).2 (by decide)

theorem find?_key_eq_none (t : Table) (key : Nat) :
    t.find? (fun p => p.1 == key) = none ↔ ∀ e, (key, e) ∉ t := by
  rw [List.find?_eq_none]
  constructor
  · intro h e hm
    have := h _ hm
    simp at this
  · intro h x hx hk
    simp at hk
    apply h x.2
    have : x = (key, x.2) := by
      rw [← hk]
    rw [← this]
    exact hx

theorem find?_key_of_mem (t : Table) (key : Nat) (e : CacheEntry)
    (hnd : (t.map Prod.fst).Nodup) (hm : (key, e) ∈ t) :
    t.find? (fun p => p.1 == key) = some (key, e) := by
  induction t with
  | nil => cases hm
  | cons p rest ih =>
      rw [List.map_cons, List.nodup_cons] at hnd
      rcases List.mem_cons.mp hm with heq | hm2
      · rw [← heq]
        simp [List.find?]
      · have hk : ¬ p.1 = key := by
          intro h
          exact hnd.1 (h ▸ List.mem_map.mpr ⟨(key, e), hm2, rfl⟩)
        have hb : (p.1 == key) = false := by
          simp [hk]
        simp only [List.find?, hb]
        exact ih hnd.2 hm2

theorem eraseP_key_eq_filter (key : Nat) :
    ∀ t : Table, (t.map Prod.fst).Nodup →
      t.eraseP (fun q => q.1 == key) = t.filter (fun q => ! (q.1 == key)) := by
  intro t
  induction t with
  | nil => intro _; rfl
  | cons p rest ih =>
      intro hnd
      rw [List.map_cons, List.nodup_cons] at hnd
      by_cases hp : p.1 = key
      · have hb : (p.1 == key) = true := by simp [hp]
        rw [List.eraseP_cons, hb]
        simp only [cond_true, List.filter_cons, hb, Bool.not_true]
        rw [if_neg (by simp)]
        rw [eq_comm, List.filter_eq_self]
        intro q hq
        simp only [Bool.not_eq_true']
        have : ¬ q.1 = key := by
          intro h
          exact hnd.1 (hp ▸ h ▸ List.mem_map.mpr ⟨q, hq, rfl⟩)
        simp [this]
      · have hb : (p.1 == key) = false := by simp [hp]
        rw [List.eraseP_cons, hb]
        simp only [cond_false, List.filter_cons, hb, Bool.not_false, ih hnd.2]
        rw [if_pos trivial]

theorem accessFirst_eq_map (now key : Nat) :
    ∀ t : Table, (t.map Prod.fst).Nodup →
      accessFirst now key t =
        t.map (fun p => if p.1 = key then (p.1, p.2.Access now) else p) := by
  intro t
  induction t with
  | nil => intro _; rfl
  | cons p rest ih =>
      intro hnd
      rw [List.map_cons, List.nodup_cons] at hnd
      by_cases hp : p.1 = key
      · simp only [accessFirst, hp, if_pos, List.map_cons, if_true]
        congr 1
        rw [eq_comm]
        have : ∀ q ∈ rest, (if q.1 = key then (q.1, q.2.Access now) else q) = id q := by
          intro q hq
          have : ¬ q.1 = key := by
            intro h
            exact hnd.1 (hp ▸ h ▸ List.mem_map.mpr ⟨q, hq, rfl⟩)
          simp [this]
        rw [List.map_congr_left this, List.map_id]
      · simp only [accessFirst, hp, ite_false, List.map_cons, ih hnd.2]

/-- C5: `Get` returns empty on an absent key and leaves the cache unchanged;
on a present key whose reference is expired it removes that entry (and only
it) and returns empty; on a present live key it refreshes that entry's
`last_accessed_at` to the current instant, touches nothing else, and returns
the strong handle to the value. -/
theorem get_spec (alive : Nat → Bool) (now key : Nat) (c : ObjectCache)
    (hnd : (c.cache.map Prod.fst).Nodup) :
    ((∀ e, (key, e) ∉ c.cache) → ObjectCache.Get alive now key c = (none, c)) ∧
    (∀ e, (key, e) ∈ c.cache → alive e.value = false →
      ObjectCache.Get alive now key c =
        (none, { c with cache := c.cache.filter (fun q => ! (q.1 == key)) })) ∧
    (∀ e, (key, e) ∈ c.cache → alive e.value = true →
      ObjectCache.Get alive now key c =
        (some e.value,
          { c with cache :=
            c.cache.map (fun p => if p.1 = key then (p.1, p.2.Access now) else p) })) := by
  refine ⟨?_, ?_, ?_⟩
  · intro h
    unfold ObjectCache.Get
    rw [(find?_key_eq_none c.cache key).mpr h]
  · intro e hm ha
    unfold ObjectCache.Get
    rw [find?_key_of_mem c.cache key e hnd hm]
    have hexp : expiredRef alive (key, e).2.value = true := by simp [expiredRef, ha]
    simp only [hexp, if_pos, eraseP_key_eq_filter key c.cache hnd]
  · intro e hm ha
    unfold ObjectCache.Get
    rw [find?_key_of_mem c.cache key e hnd hm]
    have hexp : expiredRef alive (key, e).2.value = false := by simp [expiredRef, ha]
    simp only [hexp, Bool.false_eq_true, if_false, accessFirst_eq_map now key c.cache hnd]

theorem get_spec_witness :
    ObjectCache.Get aliveAll 9 0 cW5 =
      (some 5,
        { cW5 with cache :=
          cW5.cache.map (fun p => if p.1 = 0 then (p.1, p.2.Access 9) else p) }) :=
  (get_spec aliveAll 9 0 cW5 (by decide)).2.2 (CacheEntry.mk 5 0 1) (by decide) (by decide)

/-- C6: `Contains` is true exactly when the key is present with a live
reference, and it never mutates the cache: any number of `Contains` calls
leaves the state — and hence the entry the LRU policy would evict next —
unchanged. -/
theorem contains_spec (alive : Nat → Bool) (key : Nat) (c : ObjectCache)
    (hnd : (c.cache.map Prod.fst).Nodup) :
    (ObjectCache.Contains alive key c = true ↔
      ∃ e, (key, e) ∈ c.cache ∧ alive e.value = true) ∧
    (∀ l : List ((Nat → Bool) × Nat),
      runOps c (l.map (fun a => (a.1, a.2, CacheOp.containsOp key))) = some c) ∧
    (∀ l : List ((Nat → Bool) × Nat),
      (runOps c (l.map (fun a => (a.1, a.2, CacheOp.containsOp key)))).map
          (fun s => LRUPolicy.Evict s.cache) =
        some (LRUPolicy.Evict c.cache)) := by
  have hrun : ∀ l : List ((Nat → Bool) × Nat),
      runOps c (l.map (fun a => (a.1, a.2, CacheOp.containsOp key))) = some c := by
    intro l
    induction l with
    | nil => rfl
    | cons a rest ih => exact ih
  refine ⟨?_, hrun, fun l => by rw [hrun l]; rfl⟩
  constructor
  · intro h
    unfold ObjectCache.Contains at h
    cases hf : c.cache.find? (fun p => p.1 == key) with
    | none => rw [hf] at h; cases h
    | some p =>
        rw [hf] at h
        have hp1 : p.1 = key := by simpa using List.find?_some hf
        have hmem := List.mem_of_find?_eq_some hf
        refine ⟨p.2, ?_, ?_⟩
        · rw [← hp1]
          exact hmem
        · simpa [expiredRef] using h
  · rintro ⟨e, hm, ha⟩
    unfold ObjectCache.Contains
    rw [find?_key_of_mem c.cache key e hnd hm]
    simp [expiredRef, ha]

theorem contains_spec_witness :
    runOps cW6 ([(aliveAll, 3), (aliveAll, 4)].map
      (fun a => (a.1, a.2, CacheOp.containsOp 0))) = some cW6 :=
  (contains_spec aliveAll 0 cW6 (by decide)).2.1 [(aliveAll, 3), (aliveAll, 4)]

/-- C8: `CleanupExpired` keeps exactly the live entries — every surviving
entry is live and every live entry survives — and it is idempotent: with the
same liveness environment a second call changes nothing. -/
theorem cleanupExpired_spec (alive : Nat → Bool) (c : ObjectCache) :
    (∀ p, p ∈ (ObjectCache.CleanupExpired alive c).cache → alive p.2.value = true) ∧
    (∀ p, p ∈ c.cache → alive p.2.value = true →
      p ∈ (ObjectCache.CleanupExpired alive c).cache) ∧
    ObjectCache.CleanupExpired alive (ObjectCache.CleanupExpired alive c) =
      ObjectCache.CleanupExpired alive c := by
  refine ⟨?_, ?_, ?_⟩
  · intro p hp
    have := (List.mem_filter.mp hp).2
    simpa [expiredRef] using this
  · intro p hp ha
    exact List.mem_filter.mpr ⟨hp, by simp [expiredRef, ha]⟩
  · simp only [ObjectCache.CleanupExpired, List.filter_filter]
    have hfun : (fun a : Nat × CacheEntry =>
        ! expiredRef alive a.2.value && ! expiredRef alive a.2.value)
        = fun p : Nat × CacheEntry => ! expiredRef alive p.2.value := by
      funext a
      exact Bool.and_self _
    rw [hfun]

theorem cleanupExpired_spec_witness :
    (0, CacheEntry.mk 2 0 1) ∈ (ObjectCache.CleanupExpired aliveEven cW8).cache ∧
    ObjectCache.CleanupExpired aliveEven (ObjectCache.CleanupExpired aliveEven cW8) =
      ObjectCache.CleanupExpired aliveEven cW8 :=
  ⟨(cleanupExpired_spec aliveEven cW8).2.1 (0, CacheEntry.mk 2 0 1) (by decide) (by decide),
    (cleanupExpired_spec aliveEven cW8).2.2⟩
